import Mathlib

/-!
Shallow embedding of the UNSW-Predators data-acquisition scripts
(`download_unsw.py` and `organize_unsw.py`) and proofs about their
sampling and reconciliation behaviour.

Python dictionaries are modelled as insertion-ordered association lists
with unique keys: assignment (`dinsert`) overwrites the existing binding
in place when the key is present and appends otherwise, which is exactly
CPython dict semantics including iteration order.  The global Python
`random` state is modelled as an explicit generator state threaded
through the sampler; `random.sample` is modelled as repeated
draw-an-index-and-remove, the textbook formulation of uniform sampling
without replacement.  Filesystem state is modelled as explicit lists of
named files with sizes.
-/

namespace UNSW

/-- CPython dict assignment `d[k] = v`: overwrite the binding in place if
the key is present, otherwise append at the end (insertion order
preserved). -/
def dinsert {K V : Type} [DecidableEq K] : List (K × V) → K → V → List (K × V)
  | [], k, v => [(k, v)]
  | a :: d, k, v => if a.1 = k then (k, v) :: d else a :: dinsert d k v

/-- CPython dict lookup `d[k]` / membership test `k in d`. -/
def dget? {K V : Type} [DecidableEq K] : List (K × V) → K → Option V
  | [], _ => none
  | a :: d, k => if a.1 = k then some a.2 else dget? d k

/-- ASCII lower-casing of one character, as `str.lower` does on ASCII. -/
def lowerChar (c : Char) : Char :=
  if 'A' ≤ c ∧ c ≤ 'Z' then Char.ofNat (c.toNat + 32) else c

/-- Model of `s.lower()` on filenames (ASCII case folding). -/
def pyLower (s : String) : String := ⟨s.data.map lowerChar⟩

/-- Model of `os.path.basename`: everything after the last `/`. -/
def basename (s : String) : String :=
  ⟨s.data.foldl (fun acc c => if c = '/' then [] else acc ++ [c]) []⟩

/-! ## Metadata model (`download_unsw.py`) -/

structure Category where
  id : Nat
  name : String
deriving DecidableEq, Repr

structure Image where
  id : Nat
  file_name : String
deriving DecidableEq, Repr

structure Annotation where
  image_id : Nat
  category_id : Nat
deriving DecidableEq, Repr

structure Metadata where
  categories : List Category
  images : List Image
  annotations : List Annotation
deriving DecidableEq, Repr

/-- The name the spec gives to the lookup failure raised by
`cat_id_to_name[...]` / `img_id_to_file[...]` on a dangling reference. -/
inductive MetadataFormatError where
  | missingImage (image_id : Nat)
  | missingCategory (category_id : Nat)
deriving DecidableEq, Repr

def RANDOM_SEED : Nat := 42

def DESIRED_CLASSES : List String := ["dingo", "fox", "goanna", "possum", "quoll"]

/-- The categories table, id to name (`download_unsw.py:59`). -/
def cat_id_to_name (data : Metadata) : List (Nat × String) :=
  data.categories.foldl (fun d c => dinsert d c.id c.name) []

/-- The images table, id to file_name (`download_unsw.py:60`). -/
def img_id_to_file (data : Metadata) : List (Nat × String) :=
  data.images.foldl (fun d i => dinsert d i.id i.file_name) []

/-- The dict comprehension building `file_to_class`: each annotation is
resolved (image id, then category id, each raising on a dangling
reference) and folded in iteration order, later annotations for the same
filename overwriting earlier ones. -/
def buildF2C (data : Metadata) :
    List Annotation → List (String × String) →
    Except MetadataFormatError (List (String × String))
  | [], d => .ok d
  | ann :: rest, d =>
    match dget? (img_id_to_file data) ann.image_id with
    | none => .error (.missingImage ann.image_id)
    | some fname =>
      match dget? (cat_id_to_name data) ann.category_id with
      | none => .error (.missingCategory ann.category_id)
      | some cname => buildF2C data rest (dinsert d fname cname)

/-- The index `file_to_class` as built at `download_unsw.py:61-64`. -/
def file_to_class (data : Metadata) :
    Except MetadataFormatError (List (String × String)) :=
  buildF2C data data.annotations []

/-- The grouping `class_to_files`: a `defaultdict(list)` filled by iterating
`file_to_class.items()` and appending each filename to the list of its
class,
restricted to `DESIRED_CLASSES` (`download_unsw.py:66-69`). -/
def class_to_files (ftc : List (String × String)) : List (String × List String) :=
  ftc.foldl
    (fun d p =>
      if DESIRED_CLASSES.contains p.2 then
        match dget? d p.2 with
        | some fs => dinsert d p.2 (fs ++ [p.1])
        | none => dinsert d p.2 [p.1]
      else d)
    []

/-! ## Random sampling model -/

/-- One step of the pseudo-random generator (a linear congruential model of
the Mersenne Twister state advance of Python; every claim proved below holds
for every generator trajectory, so only determinism of the step is
relied upon). -/
def rngStep (g : Nat) : Nat := (g * 1103515245 + 12345) % 4294967296

/-- Model of `random.seed(seed)`: reset the global generator state from the seed. -/
def seedRng (seed : Nat) : Nat := seed

/-- Draw an index below `n` (for `n > 0`) and advance the generator. -/
def randBelow (g : Nat) (n : Nat) : Nat × Nat :=
  let g' := rngStep g
  (g' % n, g')

/-- Model of `random.sample(pool, k)`: `k` times, draw a random index into the
remaining pool, output that element and remove it — sampling without
replacement. -/
def randomSampleAux {α : Type} : Nat → List α → Nat → List α × Nat
  | g, _, 0 => ([], g)
  | g, [], _ + 1 => ([], g)
  | g, a :: pool, Nat.succ k =>
    let p := a :: pool
    let r := randBelow g p.length
    let x := p.getD r.1 a
    let rest := p.eraseIdx r.1
    let s := randomSampleAux r.2 rest k
    (x :: s.1, s.2)

/-- The draw count `int(len(files) * SAMPLE_FRACTION)` with
`SAMPLE_FRACTION = 0.5`:
multiplication by 0.5 is exact in binary floating point and `int`
truncates, so the draw count is exactly `max 1 (n / 2)` on naturals
(`download_unsw.py:73`). -/
def sampleSize (n : Nat) : Nat := max 1 (n / 2)

/-- The sampling loop `for cls, files in class_to_files.items():
sampled[cls] = random.sample(files, n)`, threading the global
generator (`download_unsw.py:71-75`). -/
def sampleClasses (g : Nat) : List (String × List String) →
    List (String × List String) × Nat
  | [] => ([], g)
  | (cls, files) :: rest =>
    let s := randomSampleAux g files (sampleSize files.length)
    let m := sampleClasses s.2 rest
    ((cls, s.1) :: m.1, m.2)

/-- The sampler `get_sampled_files` (`download_unsw.py:49-79`).  Here
`persisted` is the
content of `sampled_files.json` when that file exists (`none` otherwise);
`g` is the ambient global `random` state at call time, which the sampling
path immediately overwrites via `random.seed(RANDOM_SEED)`. -/
def get_sampled_files (persisted : Option (List (String × List String)))
    (data : Metadata) (g : Nat) :
    Except MetadataFormatError (List (String × List String)) :=
  match persisted with
  | some m => .ok m
  | none =>
    let _ := g
    let g1 := seedRng RANDOM_SEED
    match file_to_class data with
    | .error e => .error e
    | .ok ftc => .ok (sampleClasses g1 (class_to_files ftc)).1

/-! ## Filesystem and reconciler model (`organize_unsw.py`) -/

/-- A regular file in the flat staging directory. -/
structure StagedFile where
  name : String
  size : Nat
deriving DecidableEq, Repr

/-- Lookup of a staged file by name, modelling `src.exists()` combined
with grabbing the file: the first (in a real
directory: the unique) staged file with the given name. -/
def findFile : List StagedFile → String → Option StagedFile
  | [], _ => none
  | f :: rest, n => if f.name = n then some f else findFile rest n

/-- Effect of `shutil.move` out of the staging directory: the name is
gone. -/
def removeName : List StagedFile → String → List StagedFile
  | [], _ => []
  | f :: rest, n => if f.name = n then removeName rest n else f :: removeName rest n

/-- The `(full_path, class)` pairs of the manifest in the iteration order
of the nested loop at `organize_unsw.py:18-19`. -/
def expectedPairs (manifest : List (String × List String)) :
    List (String × String) :=
  manifest.foldl (fun acc e => acc ++ e.2.map (fun path => (path, e.1))) []

/-- The expected index `expected_files`:
`basename(full_path).lower() -> (full_path, class)`
over every entry of every class list, later entries overwriting earlier
ones (`organize_unsw.py:17-22`). -/
def expected_files (manifest : List (String × List String)) :
    List (String × (String × String)) :=
  (expectedPairs manifest).foldl
    (fun d pr => dinsert d (pyLower (basename pr.1)) pr) []

/-- The staging index `actual_files`: `f.name.lower() -> f.name` over
the staging directory
listing (`organize_unsw.py:27-30`). -/
def actual_files (staging : List StagedFile) : List (String × String) :=
  staging.foldl (fun d f => dinsert d (pyLower f.name) f.name) []

/-- The final report of `organize_unsw.py:50-56`.  `coveragePct = none`
models the `ZeroDivisionError` that `100 * moved / total_expected` raises
when `total_expected = 0`; otherwise the exact rational is reported. -/
structure Report where
  moved : Nat
  missing : Int
  coveragePct : Option ℚ
deriving DecidableEq, Repr

/-- The coverage expression `100 * moved / total` in Python: float true
division, raising
`ZeroDivisionError` (modelled as `none`) when `total = 0`. -/
def coverage (moved total : Nat) : Option ℚ :=
  if total = 0 then none else some (100 * (moved : ℚ) / (total : ℚ))

/-- State threaded through the move loop: `moved` counter, remaining
staging directory, and the organized tree as a map
`(class, destination name) -> size` (`shutil.move` overwrites an existing
destination file). -/
structure MoveState where
  moved : Nat
  staging : List StagedFile
  organized : List ((String × String) × Nat)
deriving DecidableEq, Repr

/-- The match-and-move loop (`organize_unsw.py:40-48`): for each
`(lower_name, real_name)` of `actual_files`, if `lower_name` is an
expected key and the staged source still exists with non-zero size, move
it to `organized/class/real_name` and count it. -/
def moveLoop (exp : List (String × (String × String))) :
    List (String × String) → MoveState → MoveState
  | [], st => st
  | (lower, real) :: rest, st =>
    match dget? exp lower with
    | none => moveLoop exp rest st
    | some pc =>
      match findFile st.staging real with
      | none => moveLoop exp rest st
      | some f =>
        if 0 < f.size then
          moveLoop exp rest
            { moved := st.moved + 1
              staging := removeName st.staging real
              organized := dinsert st.organized (pc.2, real) f.size }
        else moveLoop exp rest st

/-- Result of one `organize_unsw.py` run. -/
structure OrganizeOutcome where
  report : Report
  staging : List StagedFile
  organized : List ((String × String) × Nat)
deriving DecidableEq, Repr

/-- One full run of `organize_unsw.py` over a manifest, a staging
directory and an already-populated organized tree. -/
def organize (manifest : List (String × List String))
    (staging : List StagedFile) (organized0 : List ((String × String) × Nat)) :
    OrganizeOutcome :=
  let exp := expected_files manifest
  let act := actual_files staging
  let st := moveLoop exp act { moved := 0, staging := staging, organized := organized0 }
  let total := exp.length
  { report :=
      { moved := st.moved
        missing := (total : Int) - (st.moved : Int)
        coveragePct := coverage st.moved total }
    staging := st.staging
    organized := st.organized }

/-- The organize step inlined in `download_unsw.py:157-164`: for every
manifest entry, if `raw_dir/fname` exists it is moved to
`base_dir/cls/fname` and counted — the file size is never checked. -/
def organize_main_step (sampled : List (String × List String))
    (staging : List StagedFile) (organized0 : List ((String × String) × Nat)) :
    MoveState :=
  sampled.foldl
    (fun st e =>
      e.2.foldl
        (fun st fname =>
          match findFile st.staging fname with
          | none => st
          | some f =>
            { moved := st.moved + 1
              staging := removeName st.staging fname
              organized := dinsert st.organized (e.1, fname) f.size })
        st)
    { moved := 0, staging := staging, organized := organized0 }

/-! ## Association-list (Python dict) lemmas -/

theorem dget?_dinsert_self {K V : Type} [DecidableEq K] (d : List (K × V))
    (k : K) (v : V) : dget? (dinsert d k v) k = some v := by
  induction d with
  | nil => simp [dinsert, dget?]
  | cons a d ih =>
    by_cases h : a.1 = k
    · simp [dinsert, dget?, h]
    · simp [dinsert, dget?, h, ih]

theorem dget?_dinsert_ne {K V : Type} [DecidableEq K] (d : List (K × V))
    {k k' : K} (v : V) (h : k' ≠ k) :
    dget? (dinsert d k' v) k = dget? d k := by
  induction d with
  | nil => simp [dinsert, dget?, h]
  | cons a d ih =>
    by_cases ha : a.1 = k'
    · have hak : a.1 ≠ k := by rw [ha]; exact h
      simp [dinsert, dget?, ha, h, hak]
    · by_cases hk : a.1 = k
      · simp [dinsert, dget?, ha, hk, Ne.symm h]
      · simp [dinsert, dget?, ha, hk, ih]

theorem dget?_eq_none_iff {K V : Type} [DecidableEq K] (d : List (K × V))
    (k : K) : dget? d k = none ↔ k ∉ d.map Prod.fst := by
  induction d with
  | nil => simp [dget?]
  | cons a d ih =>
    by_cases h : a.1 = k
    · simp [dget?, h]
    · simp [dget?, h, ih, Ne.symm h]

theorem dget?_mem {K V : Type} [DecidableEq K] {d : List (K × V)}
    {k : K} {v : V} (h : dget? d k = some v) : (k, v) ∈ d := by
  induction d with
  | nil => simp [dget?] at h
  | cons a d ih =>
    by_cases ha : a.1 = k
    · simp only [dget?, if_pos ha, Option.some.injEq] at h
      apply List.mem_cons.mpr
      left
      obtain ⟨a1, a2⟩ := a
      simp only at ha h
      simp [ha, h]
    · simp only [dget?, if_neg ha] at h
      exact List.mem_cons_of_mem _ (ih h)

theorem dget?_of_mem_nodup {K V : Type} [DecidableEq K] {d : List (K × V)}
    (hd : (d.map Prod.fst).Nodup) {k : K} {v : V} (h : (k, v) ∈ d) :
    dget? d k = some v := by
  induction d with
  | nil => simp at h
  | cons a d ih =>
    simp only [List.map_cons, List.nodup_cons] at hd
    rcases List.mem_cons.mp h with h | h
    · subst h; simp [dget?]
    · have hak : a.1 ≠ k := by
        intro hak
        exact hd.1 (hak ▸ (List.mem_map.mpr ⟨(k, v), h, rfl⟩))
      simp [dget?, hak, ih hd.2 h]

theorem mem_dinsert {K V : Type} [DecidableEq K] {d : List (K × V)}
    {k : K} {v : V} {e : K × V} (h : e ∈ dinsert d k v) :
    e = (k, v) ∨ e ∈ d := by
  induction d with
  | nil => simpa [dinsert] using h
  | cons a d ih =>
    by_cases ha : a.1 = k
    · simp only [dinsert, ha, if_pos rfl] at h
      rcases List.mem_cons.mp h with h | h
      · exact Or.inl h
      · exact Or.inr (List.mem_cons_of_mem _ h)
    · simp only [dinsert, if_neg ha] at h
      rcases List.mem_cons.mp h with h | h
      · exact Or.inr (h ▸ List.mem_cons_self _ _)
      · rcases ih h with h | h
        · exact Or.inl h
        · exact Or.inr (List.mem_cons_of_mem _ h)

theorem keys_dinsert_mem {K V : Type} [DecidableEq K] {d : List (K × V)}
    {k : K} (v : V) (h : k ∈ d.map Prod.fst) :
    (dinsert d k v).map Prod.fst = d.map Prod.fst := by
  induction d with
  | nil => simp at h
  | cons a d ih =>
    by_cases ha : a.1 = k
    · simp [dinsert, ha]
    · simp only [List.map_cons] at h
      rcases List.mem_cons.mp h with h | h
      · exact absurd h.symm ha
      · simp [dinsert, ha, ih h]

theorem keys_dinsert_not_mem {K V : Type} [DecidableEq K] {d : List (K × V)}
    {k : K} (v : V) (h : k ∉ d.map Prod.fst) :
    (dinsert d k v).map Prod.fst = d.map Prod.fst ++ [k] := by
  induction d with
  | nil => simp [dinsert]
  | cons a d ih =>
    simp only [List.map_cons, List.mem_cons, not_or] at h
    have ha : a.1 ≠ k := fun hh => h.1 hh.symm
    simp [dinsert, ha, ih h.2]

theorem dinsert_not_mem {K V : Type} [DecidableEq K] {d : List (K × V)}
    {k : K} (v : V) (h : k ∉ d.map Prod.fst) :
    dinsert d k v = d ++ [(k, v)] := by
  induction d with
  | nil => simp [dinsert]
  | cons a d ih =>
    simp only [List.map_cons, List.mem_cons, not_or] at h
    have ha : a.1 ≠ k := fun hh => h.1 hh.symm
    simp [dinsert, ha, ih h.2]

theorem nodup_keys_dinsert {K V : Type} [DecidableEq K] {d : List (K × V)}
    (hd : (d.map Prod.fst).Nodup) (k : K) (v : V) :
    ((dinsert d k v).map Prod.fst).Nodup := by
  by_cases h : k ∈ d.map Prod.fst
  · rw [keys_dinsert_mem v h]; exact hd
  · rw [keys_dinsert_not_mem v h, List.nodup_append]
    refine ⟨hd, List.nodup_singleton _, ?_⟩
    intro a ha hb
    simp only [List.mem_singleton] at hb
    exact h (hb ▸ ha)

/-! ### Generic single-fold dict builders -/

theorem foldl_dinsert_nodup_keys {α K V : Type} [DecidableEq K]
    (kf : α → K) (vf : α → V) (l : List α) (d0 : List (K × V))
    (h0 : (d0.map Prod.fst).Nodup) :
    ((l.foldl (fun d x => dinsert d (kf x) (vf x)) d0).map Prod.fst).Nodup := by
  induction l generalizing d0 with
  | nil => exact h0
  | cons x l ih => exact ih _ (nodup_keys_dinsert h0 _ _)

theorem mem_keys_foldl_dinsert {α K V : Type} [DecidableEq K]
    (kf : α → K) (vf : α → V) (l : List α) (d0 : List (K × V)) (k : K) :
    k ∈ (l.foldl (fun d x => dinsert d (kf x) (vf x)) d0).map Prod.fst ↔
      k ∈ d0.map Prod.fst ∨ k ∈ l.map kf := by
  induction l generalizing d0 with
  | nil => simp
  | cons x l ih =>
    simp only [List.foldl_cons, ih, List.map_cons, List.mem_cons]
    constructor
    · rintro (h | h)
      · by_cases hx : kf x ∈ d0.map Prod.fst
        · rw [keys_dinsert_mem _ hx] at h
          exact Or.inl h
        · rw [keys_dinsert_not_mem _ hx] at h
          rcases List.mem_append.mp h with h | h
          · exact Or.inl h
          · simp at h
            exact Or.inr (Or.inl h)
      · exact Or.inr (Or.inr h)
    · rintro (h | h | h)
      · left
        by_cases hx : kf x ∈ d0.map Prod.fst
        · rwa [keys_dinsert_mem _ hx]
        · rw [keys_dinsert_not_mem _ hx]
          exact List.mem_append_left _ h
      · left
        by_cases hx : kf x ∈ d0.map Prod.fst
        · rw [keys_dinsert_mem _ hx]; exact h ▸ hx
        · rw [keys_dinsert_not_mem _ hx]
          exact List.mem_append_right _ (by simp [h])
      · exact Or.inr h

theorem mem_foldl_dinsert {α K V : Type} [DecidableEq K]
    (kf : α → K) (vf : α → V) (l : List α) (d0 : List (K × V))
    {e : K × V} (h : e ∈ l.foldl (fun d x => dinsert d (kf x) (vf x)) d0) :
    e ∈ d0 ∨ ∃ x ∈ l, e = (kf x, vf x) := by
  induction l generalizing d0 with
  | nil => exact Or.inl h
  | cons x l ih =>
    rcases ih _ h with h | ⟨y, hy, he⟩
    · rcases mem_dinsert h with h | h
      · exact Or.inr ⟨x, List.mem_cons_self _ _, h⟩
      · exact Or.inl h
    · exact Or.inr ⟨y, List.mem_cons_of_mem _ hy, he⟩

theorem foldl_dinsert_append {α K V : Type} [DecidableEq K]
    (kf : α → K) (vf : α → V) (l : List α) (d0 : List (K × V))
    (hnd : (l.map kf).Nodup) (hdisj : ∀ x ∈ l, kf x ∉ d0.map Prod.fst) :
    l.foldl (fun d x => dinsert d (kf x) (vf x)) d0 =
      d0 ++ l.map (fun x => (kf x, vf x)) := by
  induction l generalizing d0 with
  | nil => simp
  | cons x l ih =>
    simp only [List.map_cons, List.nodup_cons] at hnd
    have hx : kf x ∉ d0.map Prod.fst := hdisj x (List.mem_cons_self _ _)
    have hdisj2 : ∀ y ∈ l, kf y ∉ (d0 ++ [(kf x, vf x)]).map Prod.fst := by
      intro y hy
      simp only [List.map_append, List.mem_append, List.map_cons, List.map_nil,
        List.mem_singleton, not_or]
      exact ⟨hdisj y (List.mem_cons_of_mem _ hy),
        fun hk => hnd.1 (hk ▸ List.mem_map.mpr ⟨y, hy, rfl⟩)⟩
    rw [List.foldl_cons, dinsert_not_mem _ hx, ih (d0 ++ [(kf x, vf x)]) hnd.2 hdisj2]
    simp

/-! ### Staged-file list lemmas -/

theorem findFile_some {S : List StagedFile} {n : String} {f : StagedFile}
    (h : findFile S n = some f) : f ∈ S ∧ f.name = n := by
  induction S with
  | nil => simp [findFile] at h
  | cons g S ih =>
    by_cases hg : g.name = n
    · simp [findFile, hg] at h
      exact ⟨h ▸ List.mem_cons_self _ _, h ▸ hg⟩
    · simp only [findFile, if_neg hg] at h
      exact ⟨List.mem_cons_of_mem _ (ih h).1, (ih h).2⟩

theorem findFile_of_mem_nodup {S : List StagedFile}
    (hnd : (S.map StagedFile.name).Nodup) {f : StagedFile} (h : f ∈ S) :
    findFile S f.name = some f := by
  induction S with
  | nil => simp at h
  | cons g S ih =>
    simp only [List.map_cons, List.nodup_cons] at hnd
    rcases List.mem_cons.mp h with h | h
    · subst h; simp [findFile]
    · have hg : g.name ≠ f.name := by
        intro hh
        exact hnd.1 (hh ▸ List.mem_map.mpr ⟨f, h, rfl⟩)
      simp [findFile, hg, ih hnd.2 h]

theorem findFile_removeName_ne (S : List StagedFile) {v w : String}
    (h : v ≠ w) : findFile (removeName S w) v = findFile S v := by
  induction S with
  | nil => simp [removeName]
  | cons g S ih =>
    by_cases hg : g.name = w
    · have hv : g.name ≠ v := by
        intro hh
        exact h (by rw [← hh, hg])
      simp only [removeName, if_pos hg, findFile, if_neg hv]
      exact ih
    · by_cases hv : g.name = v
      · simp only [removeName, if_neg hg, findFile, if_pos hv]
      · simp only [removeName, if_neg hg, findFile, if_neg hv]
        exact ih

theorem removeName_sublist (S : List StagedFile) (n : String) :
    List.Sublist (removeName S n) S := by
  induction S with
  | nil => simp [removeName]
  | cons g S ih =>
    by_cases hg : g.name = n
    · simp only [removeName, if_pos hg]
      exact ih.cons _
    · simp only [removeName, if_neg hg]
      exact ih.cons₂ _

theorem mem_removeName {S : List StagedFile} {n : String} {f : StagedFile} :
    f ∈ removeName S n ↔ f ∈ S ∧ f.name ≠ n := by
  induction S with
  | nil => simp [removeName]
  | cons g S ih =>
    by_cases hg : g.name = n
    · simp only [removeName, if_pos hg, ih, List.mem_cons]
      constructor
      · rintro ⟨h, hn⟩; exact ⟨Or.inr h, hn⟩
      · rintro ⟨h | h, hn⟩
        · exact absurd (h ▸ hg) hn
        · exact ⟨h, hn⟩
    · simp only [removeName, if_neg hg, List.mem_cons, ih]
      constructor
      · rintro (h | ⟨h, hn⟩)
        · exact ⟨Or.inl h, h ▸ hg⟩
        · exact ⟨Or.inr h, hn⟩
      · rintro ⟨h | h, hn⟩
        · exact Or.inl h
        · exact Or.inr ⟨h, hn⟩

/-! ### Sampler lemmas -/

theorem randomSampleAux_zero {α : Type} (g : Nat) (pool : List α) :
    randomSampleAux g pool 0 = ([], g) := by
  cases pool <;> rfl

theorem randomSampleAux_nil {α : Type} (g : Nat) (k : Nat) :
    randomSampleAux (α := α) g [] k = ([], g) := by
  cases k <;> rfl

theorem randomSampleAux_cons {α : Type} (g : Nat) (a : α) (pool : List α)
    (k : Nat) :
    randomSampleAux g (a :: pool) (k + 1) =
      ((a :: pool).getD (rngStep g % (a :: pool).length) a ::
        (randomSampleAux (rngStep g)
          ((a :: pool).eraseIdx (rngStep g % (a :: pool).length)) k).1,
       (randomSampleAux (rngStep g)
          ((a :: pool).eraseIdx (rngStep g % (a :: pool).length)) k).2) := rfl

theorem length_randomSampleAux {α : Type} (k : Nat) :
    ∀ (g : Nat) (pool : List α),
    (randomSampleAux g pool k).1.length = min k pool.length := by
  induction k with
  | zero =>
    intro g pool
    simp [randomSampleAux_zero]
  | succ k ih =>
    intro g pool
    cases pool with
    | nil => simp [randomSampleAux_nil]
    | cons a rest =>
      have hlen : (rngStep g) % (a :: rest).length < (a :: rest).length :=
        Nat.mod_lt _ (by simp)
      have h2 := List.length_eraseIdx_add_one hlen
      rw [randomSampleAux_cons]
      simp only [List.length_cons]
      rw [ih]
      simp only [List.length_cons] at h2 hlen ⊢
      omega

theorem multiset_randomSampleAux {α : Type} [DecidableEq α] (k : Nat) :
    ∀ (g : Nat) (pool : List α),
    ((randomSampleAux g pool k).1 : Multiset α) ≤ (pool : Multiset α) := by
  induction k with
  | zero =>
    intro g pool
    simp [randomSampleAux_zero]
  | succ k ih =>
    intro g pool
    cases pool with
    | nil => simp [randomSampleAux_nil]
    | cons a rest =>
      have hlen : (rngStep g) % (a :: rest).length < (a :: rest).length :=
        Nat.mod_lt _ (by simp)
      have hx : (a :: rest).getD ((rngStep g) % (a :: rest).length) a =
          (a :: rest)[(rngStep g) % (a :: rest).length] :=
        List.getD_eq_getElem _ _ hlen
      have hperm : (a :: rest).Perm
          ((a :: rest)[(rngStep g) % (a :: rest).length] ::
            (a :: rest).eraseIdx ((rngStep g) % (a :: rest).length)) :=
        (List.perm_cons_erase (List.getElem_mem hlen)).trans
          (List.Perm.cons _ (List.erase_getElem hlen))
      have hs := ih (rngStep g)
        ((a :: rest).eraseIdx ((rngStep g) % (a :: rest).length))
      have hcoe : ((a :: rest : List α) : Multiset α) =
          (((a :: rest)[(rngStep g) % (a :: rest).length] ::
            (a :: rest).eraseIdx ((rngStep g) % (a :: rest).length) :
            List α) : Multiset α) :=
        Multiset.coe_eq_coe.mpr hperm
      rw [randomSampleAux_cons]
      rw [hx, hcoe, ← Multiset.cons_coe, ← Multiset.cons_coe]
      exact Multiset.cons_le_cons _ hs

theorem class_to_files_fold_inv (l : List (String × String)) :
    ∀ d0 : List (String × List String),
    (d0.map Prod.fst).Nodup → (∀ e ∈ d0, e.2 ≠ []) →
    ((l.foldl
      (fun d p =>
        if DESIRED_CLASSES.contains p.2 then
          match dget? d p.2 with
          | some fs => dinsert d p.2 (fs ++ [p.1])
          | none => dinsert d p.2 [p.1]
        else d)
      d0).map Prod.fst).Nodup ∧
    ∀ e ∈ l.foldl
      (fun d p =>
        if DESIRED_CLASSES.contains p.2 then
          match dget? d p.2 with
          | some fs => dinsert d p.2 (fs ++ [p.1])
          | none => dinsert d p.2 [p.1]
        else d)
      d0, e.2 ≠ [] := by
  induction l with
  | nil =>
    intro d0 h1 h2
    exact ⟨h1, h2⟩
  | cons p l ih =>
    intro d0 h1 h2
    rw [List.foldl_cons]
    by_cases hc : DESIRED_CLASSES.contains p.2
    · rw [if_pos hc]
      cases hd : dget? d0 p.2 with
      | some fs =>
        refine ih _ (nodup_keys_dinsert h1 _ _) ?_
        intro e he
        rcases mem_dinsert he with he | he
        · subst he; simp
        · exact h2 e he
      | none =>
        refine ih _ (nodup_keys_dinsert h1 _ _) ?_
        intro e he
        rcases mem_dinsert he with he | he
        · subst he; simp
        · exact h2 e he
    · rw [if_neg hc]
      exact ih _ h1 h2

theorem class_to_files_nodup_keys (ftc : List (String × String)) :
    ((class_to_files ftc).map Prod.fst).Nodup :=
  (class_to_files_fold_inv ftc [] (by simp) (by simp)).1

theorem class_to_files_values_ne_nil (ftc : List (String × String)) :
    ∀ e ∈ class_to_files ftc, e.2 ≠ [] :=
  (class_to_files_fold_inv ftc [] (by simp) (by simp)).2

theorem mem_sampleClasses {entries : List (String × List String)} :
    ∀ (g : Nat) {cls : String} {sel : List String},
    (cls, sel) ∈ (sampleClasses g entries).1 →
    ∃ g0 files, (cls, files) ∈ entries ∧
      sel = (randomSampleAux g0 files (sampleSize files.length)).1 := by
  induction entries with
  | nil =>
    intro g cls sel h
    simp [sampleClasses] at h
  | cons e rest ih =>
    intro g cls sel h
    obtain ⟨c, files⟩ := e
    simp only [sampleClasses] at h
    rcases List.mem_cons.mp h with h | h
    · rw [Prod.mk.injEq] at h
      exact ⟨g, files, by simp [h.1], h.2⟩
    · obtain ⟨g0, files0, hmem, hsel⟩ := ih _ h
      exact ⟨g0, files0, List.mem_cons_of_mem _ hmem, hsel⟩

/-! ### Metadata lookup-table lemmas -/

theorem img_id_to_file_none_iff (data : Metadata) (i : Nat) :
    dget? (img_id_to_file data) i = none ↔ ∀ img ∈ data.images, img.id ≠ i := by
  constructor
  · intro h img hmem hid
    exact absurd
      ((mem_keys_foldl_dinsert (fun img : Image => img.id)
        (fun img : Image => img.file_name) data.images [] i).mpr
        (Or.inr (List.mem_map.mpr ⟨img, hmem, hid⟩)))
      ((dget?_eq_none_iff _ _).mp h)
  · intro h
    rw [dget?_eq_none_iff]
    intro hk
    rcases (mem_keys_foldl_dinsert (fun img : Image => img.id)
        (fun img : Image => img.file_name) data.images [] i).mp hk with h0 | h0
    · simp at h0
    · obtain ⟨img, hmem, hid⟩ := List.mem_map.mp h0
      exact h img hmem hid

theorem cat_id_to_name_none_iff (data : Metadata) (i : Nat) :
    dget? (cat_id_to_name data) i = none ↔ ∀ c ∈ data.categories, c.id ≠ i := by
  constructor
  · intro h c hmem hid
    exact absurd
      ((mem_keys_foldl_dinsert (fun c : Category => c.id)
        (fun c : Category => c.name) data.categories [] i).mpr
        (Or.inr (List.mem_map.mpr ⟨c, hmem, hid⟩)))
      ((dget?_eq_none_iff _ _).mp h)
  · intro h
    rw [dget?_eq_none_iff]
    intro hk
    rcases (mem_keys_foldl_dinsert (fun c : Category => c.id)
        (fun c : Category => c.name) data.categories [] i).mp hk with h0 | h0
    · simp at h0
    · obtain ⟨c, hmem, hid⟩ := List.mem_map.mp h0
      exact h c hmem hid

theorem buildF2C_ok_iff (data : Metadata) (anns : List Annotation) :
    ∀ d : List (String × String),
    (∃ r, buildF2C data anns d = .ok r) ↔
      ∀ ann ∈ anns,
        dget? (img_id_to_file data) ann.image_id ≠ none ∧
        dget? (cat_id_to_name data) ann.category_id ≠ none := by
  induction anns with
  | nil =>
    intro d
    simp [buildF2C]
  | cons ann rest ih =>
    intro d
    cases hi : dget? (img_id_to_file data) ann.image_id with
    | none =>
      constructor
      · rintro ⟨r, hr⟩
        simp [buildF2C, hi] at hr
      · intro h
        exact absurd hi ((h ann (List.mem_cons_self _ _)).1)
    | some fname =>
      cases hc : dget? (cat_id_to_name data) ann.category_id with
      | none =>
        constructor
        · rintro ⟨r, hr⟩
          simp [buildF2C, hi, hc] at hr
        · intro h
          exact absurd hc ((h ann (List.mem_cons_self _ _)).2)
      | some cname =>
        have hstep : buildF2C data (ann :: rest) d =
            buildF2C data rest (dinsert d fname cname) := by
          simp [buildF2C, hi, hc]
        constructor
        · rintro ⟨r, hr⟩
          intro a ha
          rcases List.mem_cons.mp ha with ha | ha
          · subst ha
            exact ⟨by simp [hi], by simp [hc]⟩
          · rw [hstep] at hr
            exact (ih _).mp ⟨r, hr⟩ a ha
        · intro h
          obtain ⟨r, hr⟩ :=
            (ih (dinsert d fname cname)).mpr
              (fun a ha => h a (List.mem_cons_of_mem _ ha))
          exact ⟨r, by rw [hstep]; exact hr⟩

theorem buildF2C_append (data : Metadata) (l1 l2 : List Annotation) :
    ∀ d r, buildF2C data (l1 ++ l2) d = .ok r →
      ∃ d1, buildF2C data l1 d = .ok d1 ∧ buildF2C data l2 d1 = .ok r := by
  induction l1 with
  | nil =>
    intro d r h
    exact ⟨d, rfl, h⟩
  | cons a l ih =>
    intro d r h
    rw [List.cons_append] at h
    cases hi : dget? (img_id_to_file data) a.image_id with
    | none => simp [buildF2C, hi] at h
    | some fname =>
      cases hc : dget? (cat_id_to_name data) a.category_id with
      | none => simp [buildF2C, hi, hc] at h
      | some cname =>
        have hstep : buildF2C data (a :: (l ++ l2)) d =
            buildF2C data (l ++ l2) (dinsert d fname cname) := by
          simp [buildF2C, hi, hc]
        rw [hstep] at h
        obtain ⟨d1, h1, h2⟩ := ih _ _ h
        refine ⟨d1, ?_, h2⟩
        have hstep2 : buildF2C data (a :: l) d =
            buildF2C data l (dinsert d fname cname) := by
          simp [buildF2C, hi, hc]
        rw [hstep2]
        exact h1

theorem buildF2C_preserve (data : Metadata) (anns : List Annotation)
    (k : String) :
    ∀ d r, buildF2C data anns d = .ok r →
    (∀ a ∈ anns, ∀ f, dget? (img_id_to_file data) a.image_id = some f → f ≠ k) →
    dget? r k = dget? d k := by
  induction anns with
  | nil =>
    intro d r h _
    have : d = r := by
      have hd : buildF2C data [] d = .ok d := rfl
      rw [hd] at h
      injection h
    rw [← this]
  | cons a rest ih =>
    intro d r h hna
    cases hi : dget? (img_id_to_file data) a.image_id with
    | none => simp [buildF2C, hi] at h
    | some fname =>
      cases hc : dget? (cat_id_to_name data) a.category_id with
      | none => simp [buildF2C, hi, hc] at h
      | some cname =>
        have hstep : buildF2C data (a :: rest) d =
            buildF2C data rest (dinsert d fname cname) := by
          simp [buildF2C, hi, hc]
        rw [hstep] at h
        have hfk : fname ≠ k := hna a (List.mem_cons_self _ _) fname hi
        rw [ih _ _ h (fun a' ha' => hna a' (List.mem_cons_of_mem _ ha'))]
        exact dget?_dinsert_ne _ _ hfk

/-! ## Claim theorems: sampler -/

/-- C2: for every class present in the output manifest of the sampler whose
candidate list in the (class-restricted) file-to-class index has `n`
files, the manifest list for that class has exactly
`max 1 (floor (n * 0.5))` filenames, drawn without replacement from that
candidates of that class (the drawn list is a sub-multiset of the candidates).
This holds for every generator trajectory. -/
theorem sampler_fraction_invariant (data : Metadata) (g : Nat)
    (m : List (String × List String))
    (h : get_sampled_files none data g = .ok m)
    (cls : String) (sel : List String) (hm : (cls, sel) ∈ m) :
    ∃ ftc files, file_to_class data = .ok ftc ∧
      dget? (class_to_files ftc) cls = some files ∧
      sel.length = max 1 (files.length / 2) ∧
      (sel : Multiset String) ≤ (files : Multiset String) := by
  cases heq : file_to_class data with
  | error e =>
    simp [get_sampled_files, heq] at h
  | ok ftc =>
    simp only [get_sampled_files, heq, Except.ok.injEq] at h
    rw [← h] at hm
    obtain ⟨g0, files, hmem, hsel⟩ := mem_sampleClasses _ hm
    have hne : files ≠ [] := class_to_files_values_ne_nil ftc _ hmem
    have hn : 1 ≤ files.length := List.length_pos.mpr hne
    have hk : sampleSize files.length ≤ files.length := by
      rw [sampleSize]
      exact Nat.max_le.mpr ⟨hn, Nat.div_le_self _ _⟩
    refine ⟨ftc, files, rfl, dget?_of_mem_nodup (class_to_files_nodup_keys ftc) hmem,
      ?_, ?_⟩
    · rw [hsel, length_randomSampleAux, min_eq_left hk, sampleSize]
    · rw [hsel]
      exact multiset_randomSampleAux _ _ _

/-- Witness for C2 at a concrete metadata document: the class `fox` has
three candidates `a.jpg`, `b.jpg`, `c.jpg` and the sampler draws exactly
`max 1 (3 / 2) = 1` of them. -/
theorem sampler_fraction_invariant_witness :
    ∃ ftc files,
      file_to_class
        ({ categories := [⟨1, "fox"⟩]
           images := [⟨1, "a.jpg"⟩, ⟨2, "b.jpg"⟩, ⟨3, "c.jpg"⟩]
           annotations := [⟨1, 1⟩, ⟨2, 1⟩, ⟨3, 1⟩] } : Metadata) = .ok ftc ∧
      dget? (class_to_files ftc) "fox" = some files ∧
      (["c.jpg"] : List String).length = max 1 (files.length / 2) ∧
      ((["c.jpg"] : List String) : Multiset String) ≤ (files : Multiset String) :=
  sampler_fraction_invariant
    { categories := [⟨1, "fox"⟩]
      images := [⟨1, "a.jpg"⟩, ⟨2, "b.jpg"⟩, ⟨3, "c.jpg"⟩]
      annotations := [⟨1, 1⟩, ⟨2, 1⟩, ⟨3, 1⟩] }
    0 [("fox", ["c.jpg"])] rfl ("fox") ["c.jpg"] (by decide)

/-- C3: when a persisted manifest exists, the sampler returns it verbatim,
for every metadata document and every ambient generator state — the
result depends on none of the sampling inputs. -/
theorem sampler_persisted_short_circuit
    (m : List (String × List String)) (data : Metadata) (g : Nat) :
    get_sampled_files (some m) data g = .ok m := rfl

/-- C5: building the filename-to-class index succeeds exactly when every
image id and category id of every annotation resolve in the respective tables;
a dangling reference makes it fail (with a `MetadataFormatError`). -/
theorem metadata_index_ok_iff (data : Metadata) :
    (∃ ftc, file_to_class data = .ok ftc) ↔
      ∀ ann ∈ data.annotations,
        (∃ img ∈ data.images, img.id = ann.image_id) ∧
        (∃ c ∈ data.categories, c.id = ann.category_id) := by
  rw [show file_to_class data = buildF2C data data.annotations [] from rfl,
    buildF2C_ok_iff data data.annotations []]
  apply forall_congr'
  intro ann
  apply imp_congr_right
  intro _
  constructor
  · rintro ⟨h1, h2⟩
    constructor
    · by_contra hno
      push_neg at hno
      exact h1 ((img_id_to_file_none_iff data ann.image_id).mpr hno)
    · by_contra hno
      push_neg at hno
      exact h2 ((cat_id_to_name_none_iff data ann.category_id).mpr hno)
  · rintro ⟨⟨img, hm, hid⟩, ⟨c, hcm, hcid⟩⟩
    constructor
    · intro hnone
      exact ((img_id_to_file_none_iff data ann.image_id).mp hnone) img hm hid
    · intro hnone
      exact ((cat_id_to_name_none_iff data ann.category_id).mp hnone) c hcm hcid

/-- C8: with no persisted manifest, the sampler result does not depend
on the ambient generator state (the code reseeds with the fixed
`RANDOM_SEED` on entry), so two independent invocations on the same
metadata yield identical manifests. -/
theorem sampler_deterministic (data : Metadata) (g1 g2 : Nat) :
    get_sampled_files none data g1 = get_sampled_files none data g2 := rfl

/-- C9: annotations are folded in iteration order with later annotations
for an already-mapped filename overwriting earlier ones: if the
annotation list splits as `pre ++ a :: post`, `a` resolves to
`(fname, cname)`, and no annotation after `a` resolves to `fname`, then
the final index maps `fname` to `cname`. -/
theorem annotation_last_write_wins (data : Metadata)
    (ftc : List (String × String)) (h : file_to_class data = .ok ftc)
    (pre post : List Annotation) (a : Annotation)
    (hsplit : data.annotations = pre ++ a :: post)
    (fname cname : String)
    (hi : dget? (img_id_to_file data) a.image_id = some fname)
    (hc : dget? (cat_id_to_name data) a.category_id = some cname)
    (hlast : ∀ a' ∈ post, ∀ f,
      dget? (img_id_to_file data) a'.image_id = some f → f ≠ fname) :
    dget? ftc fname = some cname := by
  rw [show file_to_class data = buildF2C data data.annotations [] from rfl,
    hsplit] at h
  obtain ⟨d1, h1, h2⟩ := buildF2C_append data pre (a :: post) [] ftc h
  have hstep : buildF2C data (a :: post) d1 =
      buildF2C data post (dinsert d1 fname cname) := by
    simp [buildF2C, hi, hc]
  rw [hstep] at h2
  rw [buildF2C_preserve data post fname _ _ h2 hlast]
  exact dget?_dinsert_self _ _ _

/-- Witness for C9: `a.jpg` is annotated first as `fox` (category 1) and
then as `dingo` (category 2); the final index maps it to `dingo`. -/
theorem annotation_last_write_wins_witness :
    dget? [("a.jpg", "dingo")] ("a.jpg") = some "dingo" :=
  annotation_last_write_wins
    { categories := [⟨1, "fox"⟩, ⟨2, "dingo"⟩]
      images := [⟨1, "a.jpg"⟩]
      annotations := [⟨1, 1⟩, ⟨1, 2⟩] }
    [("a.jpg", "dingo")] rfl [⟨1, 1⟩] [] ⟨1, 2⟩ rfl ("a.jpg") ("dingo") rfl rfl
    (by simp)

/-! ### Move-loop lemmas -/

theorem moveLoop_nil (exp : List (String × (String × String))) (st : MoveState) :
    moveLoop exp [] st = st := rfl

theorem moveLoop_cons_none {exp : List (String × (String × String))}
    {lower real : String} (rest : List (String × String)) (st : MoveState)
    (h : dget? exp lower = none) :
    moveLoop exp ((lower, real) :: rest) st = moveLoop exp rest st := by
  simp [moveLoop, h]

theorem moveLoop_cons_notfound {exp : List (String × (String × String))}
    {lower real : String} (rest : List (String × String)) (st : MoveState)
    {pc : String × String} (h1 : dget? exp lower = some pc)
    (h2 : findFile st.staging real = none) :
    moveLoop exp ((lower, real) :: rest) st = moveLoop exp rest st := by
  simp [moveLoop, h1, h2]

theorem moveLoop_cons_zero {exp : List (String × (String × String))}
    {lower real : String} (rest : List (String × String)) (st : MoveState)
    {pc : String × String} {f : StagedFile} (h1 : dget? exp lower = some pc)
    (h2 : findFile st.staging real = some f) (h3 : ¬ 0 < f.size) :
    moveLoop exp ((lower, real) :: rest) st = moveLoop exp rest st := by
  simp [moveLoop, h1, h2, h3]

theorem moveLoop_cons_move {exp : List (String × (String × String))}
    {lower real : String} (rest : List (String × String)) (st : MoveState)
    {pc : String × String} {f : StagedFile} (h1 : dget? exp lower = some pc)
    (h2 : findFile st.staging real = some f) (h3 : 0 < f.size) :
    moveLoop exp ((lower, real) :: rest) st =
      moveLoop exp rest
        { moved := st.moved + 1
          staging := removeName st.staging real
          organized := dinsert st.organized (pc.2, real) f.size } := by
  simp [moveLoop, h1, h2, h3]

theorem moveLoop_staging_sublist (exp : List (String × (String × String))) :
    ∀ (act : List (String × String)) (st : MoveState),
    List.Sublist (moveLoop exp act st).staging st.staging := by
  intro act
  induction act with
  | nil =>
    intro st
    exact List.Sublist.refl _
  | cons e rest ih =>
    intro st
    obtain ⟨lower, real⟩ := e
    cases h1 : dget? exp lower with
    | none =>
      rw [moveLoop_cons_none rest st h1]
      exact ih st
    | some pc =>
      cases h2 : findFile st.staging real with
      | none =>
        rw [moveLoop_cons_notfound rest st h1 h2]
        exact ih st
      | some f =>
        by_cases h3 : 0 < f.size
        · rw [moveLoop_cons_move rest st h1 h2 h3]
          exact (ih _).trans (removeName_sublist _ _)
        · rw [moveLoop_cons_zero rest st h1 h2 h3]
          exact ih st

theorem moveLoop_no_moves (exp : List (String × (String × String))) :
    ∀ (act : List (String × String)) (st : MoveState),
    (∀ e ∈ act, dget? exp e.1 = none ∨
      ∀ f, findFile st.staging e.2 = some f → f.size = 0) →
    moveLoop exp act st = st := by
  intro act
  induction act with
  | nil =>
    intro st _
    rfl
  | cons e rest ih =>
    intro st h
    obtain ⟨lower, real⟩ := e
    rcases h (lower, real) (List.mem_cons_self _ _) with h1 | h1
    · rw [moveLoop_cons_none rest st h1]
      exact ih st (fun e he => h e (List.mem_cons_of_mem _ he))
    · cases hd : dget? exp lower with
      | none =>
        rw [moveLoop_cons_none rest st hd]
        exact ih st (fun e he => h e (List.mem_cons_of_mem _ he))
      | some pc =>
        cases h2 : findFile st.staging real with
        | none =>
          rw [moveLoop_cons_notfound rest st hd h2]
          exact ih st (fun e he => h e (List.mem_cons_of_mem _ he))
        | some f =>
          have hz : f.size = 0 := h1 f h2
          rw [moveLoop_cons_zero rest st hd h2 (by omega)]
          exact ih st (fun e he => h e (List.mem_cons_of_mem _ he))

theorem moveLoop_organized_preserve (exp : List (String × (String × String)))
    (real : String) (q : String × String) (hq : q.2 = real) :
    ∀ (act : List (String × String)) (st : MoveState),
    (∀ e ∈ act, e.2 ≠ real) →
    dget? (moveLoop exp act st).organized q = dget? st.organized q := by
  intro act
  induction act with
  | nil =>
    intro st _
    rfl
  | cons e rest ih =>
    intro st h
    obtain ⟨lower, v⟩ := e
    have hv : v ≠ real := h (lower, v) (List.mem_cons_self _ _)
    have hrest : ∀ e ∈ rest, e.2 ≠ real :=
      fun e he => h e (List.mem_cons_of_mem _ he)
    cases h1 : dget? exp lower with
    | none =>
      rw [moveLoop_cons_none rest st h1]
      exact ih st hrest
    | some pc =>
      cases h2 : findFile st.staging v with
      | none =>
        rw [moveLoop_cons_notfound rest st h1 h2]
        exact ih st hrest
      | some f =>
        by_cases h3 : 0 < f.size
        · rw [moveLoop_cons_move rest st h1 h2 h3]
          rw [ih _ hrest]
          have hne : (pc.2, v) ≠ q := by
            intro he
            exact hv (by rw [← hq, ← he])
          exact dget?_dinsert_ne _ _ hne
        · rw [moveLoop_cons_zero rest st h1 h2 h3]
          exact ih st hrest

theorem moveLoop_moved_le (exp : List (String × (String × String))) :
    ∀ (act : List (String × String)) (st : MoveState),
    (moveLoop exp act st).moved ≤
      st.moved + act.countP (fun e => (dget? exp e.1).isSome) := by
  intro act
  induction act with
  | nil =>
    intro st
    simp [moveLoop_nil]
  | cons e rest ih =>
    intro st
    obtain ⟨lower, real⟩ := e
    rw [List.countP_cons]
    cases h1 : dget? exp lower with
    | none =>
      rw [moveLoop_cons_none rest st h1]
      have hle := ih st
      simp only [h1, Option.isSome_none]
      omega
    | some pc =>
      simp only [h1, Option.isSome_some, if_pos]
      cases h2 : findFile st.staging real with
      | none =>
        rw [moveLoop_cons_notfound rest st h1 h2]
        have hle := ih st
        omega
      | some f =>
        by_cases h3 : 0 < f.size
        · rw [moveLoop_cons_move rest st h1 h2 h3]
          have hle := ih
            { moved := st.moved + 1
              staging := removeName st.staging real
              organized := dinsert st.organized (pc.2, real) f.size }
          simp only at hle
          omega
        · rw [moveLoop_cons_zero rest st h1 h2 h3]
          have hle := ih st
          omega

theorem moveLoop_moved_le_excl (exp : List (String × (String × String)))
    (k : String) :
    ∀ (act : List (String × String)) (st : MoveState),
    (∀ e ∈ act, pyLower e.2 = e.1) →
    (∀ e ∈ act, e.1 = k → ∀ f, findFile st.staging e.2 = some f → f.size = 0) →
    (moveLoop exp act st).moved ≤
      st.moved + act.countP (fun e => (dget? exp e.1).isSome && e.1 != k) := by
  intro act
  induction act with
  | nil =>
    intro st _ _
    simp [moveLoop_nil]
  | cons e rest ih =>
    intro st hcoh hk
    obtain ⟨lower, real⟩ := e
    have hcoh2 : ∀ e ∈ rest, pyLower e.2 = e.1 :=
      fun e he => hcoh e (List.mem_cons_of_mem _ he)
    rw [List.countP_cons]
    by_cases hlk : lower = k
    · cases h1 : dget? exp lower with
      | none =>
        rw [moveLoop_cons_none rest st h1]
        have hle := ih st hcoh2
          (fun e he => hk e (List.mem_cons_of_mem _ he))
        simp only [h1, Option.isSome_none, Bool.false_and]
        omega
      | some pc =>
        cases h2 : findFile st.staging real with
        | none =>
          rw [moveLoop_cons_notfound rest st h1 h2]
          have hle := ih st hcoh2
            (fun e he => hk e (List.mem_cons_of_mem _ he))
          simp only [hlk]
          omega
        | some f =>
          have hz : f.size = 0 :=
            hk (lower, real) (List.mem_cons_self _ _) hlk f h2
          rw [moveLoop_cons_zero rest st h1 h2 (by omega)]
          have hle := ih st hcoh2
            (fun e he => hk e (List.mem_cons_of_mem _ he))
          simp only [hlk]
          omega
    · cases h1 : dget? exp lower with
      | none =>
        rw [moveLoop_cons_none rest st h1]
        have hle := ih st hcoh2
          (fun e he => hk e (List.mem_cons_of_mem _ he))
        simp only [h1, Option.isSome_none, Bool.false_and]
        omega
      | some pc =>
        cases h2 : findFile st.staging real with
        | none =>
          rw [moveLoop_cons_notfound rest st h1 h2]
          have hle := ih st hcoh2
            (fun e he => hk e (List.mem_cons_of_mem _ he))
          omega
        | some f =>
          by_cases h3 : 0 < f.size
          · rw [moveLoop_cons_move rest st h1 h2 h3]
            have hlow : pyLower real = lower :=
              hcoh (lower, real) (List.mem_cons_self _ _)
            have hk2 : ∀ e ∈ rest, e.1 = k → ∀ f2,
                findFile (removeName st.staging real) e.2 = some f2 →
                f2.size = 0 := by
              intro e he hek f2 hf2
              have hev : e.2 ≠ real := by
                intro hev
                apply hlk
                rw [← hlow, ← hev, hcoh2 e he, hek]
              rw [findFile_removeName_ne _ hev] at hf2
              exact hk e (List.mem_cons_of_mem _ he) hek f2 hf2
            have hle := ih
              { moved := st.moved + 1
                staging := removeName st.staging real
                organized := dinsert st.organized (pc.2, real) f.size }
              hcoh2 hk2
            simp only at hle
            simp only [h1, Option.isSome_some, Bool.true_and]
            have hbk : (lower != k) = true := by
              simpa using hlk
            rw [hbk, if_pos rfl]
            omega
          · rw [moveLoop_cons_zero rest st h1 h2 h3]
            have hle := ih st hcoh2
              (fun e he => hk e (List.mem_cons_of_mem _ he))
            omega

theorem moveLoop_match_moves (exp : List (String × (String × String)))
    (k real path cls : String) (f : StagedFile) :
    ∀ (act : List (String × String)) (st : MoveState),
    (act.map Prod.fst).Nodup → (∀ e ∈ act, pyLower e.2 = e.1) →
    (k, real) ∈ act → dget? exp k = some (path, cls) →
    findFile st.staging real = some f → 0 < f.size →
    dget? ((moveLoop exp act st).organized) (cls, real) = some f.size ∧
    (∀ f2 ∈ (moveLoop exp act st).staging, f2.name ≠ real) := by
  intro act
  induction act with
  | nil =>
    intro st _ _ hmem
    simp at hmem
  | cons e rest ih =>
    intro st hnd hcoh hmem hk hfind hsz
    obtain ⟨lower, v⟩ := e
    have hnd2 : (rest.map Prod.fst).Nodup := (List.nodup_cons.mp hnd).2
    have hcoh2 : ∀ e ∈ rest, pyLower e.2 = e.1 :=
      fun e he => hcoh e (List.mem_cons_of_mem _ he)
    rcases List.mem_cons.mp hmem with heq | hmem2
    · rw [Prod.mk.injEq] at heq
      obtain ⟨hl, hv⟩ := heq
      subst hl
      subst hv
      rw [moveLoop_cons_move rest st hk hfind hsz]
      have hlowreal : pyLower real = k := hcoh (k, real) (List.mem_cons_self _ _)
      have hvals : ∀ e ∈ rest, e.2 ≠ real := by
        intro e he hev
        apply (List.nodup_cons.mp hnd).1
        have : e.1 = k := by
          rw [← hcoh2 e he, hev, hlowreal]
        exact this ▸ List.mem_map.mpr ⟨e, he, rfl⟩
      constructor
      · rw [moveLoop_organized_preserve exp real (cls, real) rfl rest _ hvals]
        exact dget?_dinsert_self _ _ _
      · intro f2 hf2
        have hmem3 := (moveLoop_staging_sublist exp rest _).subset hf2
        simp only at hmem3
        exact (mem_removeName.mp hmem3).2
    · have hkrest : k ∈ rest.map Prod.fst :=
        List.mem_map.mpr ⟨(k, real), hmem2, rfl⟩
      have hkl : k ≠ lower := by
        intro h
        exact (List.nodup_cons.mp hnd).1 (h ▸ hkrest)
      have hvr : v ≠ real := by
        intro h
        apply hkl
        have e1 : pyLower real = k := hcoh (k, real) (List.mem_cons_of_mem _ hmem2)
        have e2 : pyLower v = lower := hcoh (lower, v) (List.mem_cons_self _ _)
        rw [← e1, ← e2, h]
      cases h1 : dget? exp lower with
      | none =>
        rw [moveLoop_cons_none rest st h1]
        exact ih st hnd2 hcoh2 hmem2 hk hfind hsz
      | some pc =>
        cases h2 : findFile st.staging v with
        | none =>
          rw [moveLoop_cons_notfound rest st h1 h2]
          exact ih st hnd2 hcoh2 hmem2 hk hfind hsz
        | some fv =>
          by_cases h3 : 0 < fv.size
          · rw [moveLoop_cons_move rest st h1 h2 h3]
            have hfind2 : findFile (removeName st.staging v) real = some f := by
              rw [findFile_removeName_ne _ (Ne.symm hvr)]
              exact hfind
            exact ih _ hnd2 hcoh2 hmem2 hk hfind2 hsz
          · rw [moveLoop_cons_zero rest st h1 h2 h3]
            exact ih st hnd2 hcoh2 hmem2 hk hfind hsz

theorem moveLoop_zero_stays (exp : List (String × (String × String))) :
    ∀ (act : List (String × String)) (st : MoveState) (f : StagedFile),
    (st.staging.map StagedFile.name).Nodup → f ∈ st.staging → f.size = 0 →
    f ∈ (moveLoop exp act st).staging := by
  intro act
  induction act with
  | nil =>
    intro st f _ hf _
    exact hf
  | cons e rest ih =>
    intro st f hnd hf hz
    obtain ⟨lower, real⟩ := e
    cases h1 : dget? exp lower with
    | none =>
      rw [moveLoop_cons_none rest st h1]
      exact ih st f hnd hf hz
    | some pc =>
      cases h2 : findFile st.staging real with
      | none =>
        rw [moveLoop_cons_notfound rest st h1 h2]
        exact ih st f hnd hf hz
      | some f0 =>
        by_cases h3 : 0 < f0.size
        · rw [moveLoop_cons_move rest st h1 h2 h3]
          obtain ⟨hf0mem, hf0name⟩ := findFile_some h2
          have hne : f.name ≠ real := by
            intro hfr
            have heq : f = f0 :=
              List.inj_on_of_nodup_map hnd hf hf0mem (by rw [hfr, hf0name])
            rw [heq] at hz
            omega
          have hnd2 : ((removeName st.staging real).map StagedFile.name).Nodup :=
            List.Nodup.sublist ((removeName_sublist _ _).map _) hnd
          exact ih _ f hnd2 (mem_removeName.mpr ⟨hf, hne⟩) hz
        · rw [moveLoop_cons_zero rest st h1 h2 h3]
          exact ih st f hnd hf hz

/-! ### Index-construction facts -/

theorem actual_files_nodup_keys (staging : List StagedFile) :
    ((actual_files staging).map Prod.fst).Nodup :=
  foldl_dinsert_nodup_keys (fun f => pyLower f.name) (fun f => f.name) staging []
    (by simp)

theorem mem_actual_files {staging : List StagedFile} {e : String × String}
    (h : e ∈ actual_files staging) :
    ∃ f ∈ staging, e = (pyLower f.name, f.name) := by
  rcases mem_foldl_dinsert (fun f => pyLower f.name) (fun f => f.name) staging []
    h with h | h
  · simp at h
  · exact h

theorem actual_files_coh (staging : List StagedFile) :
    ∀ e ∈ actual_files staging, pyLower e.2 = e.1 := by
  intro e he
  obtain ⟨f, _, rfl⟩ := mem_actual_files he
  rfl

theorem actual_files_eq_map {staging : List StagedFile}
    (hnd : (staging.map (fun x => pyLower x.name)).Nodup) :
    actual_files staging = staging.map (fun f => (pyLower f.name, f.name)) := by
  have h := foldl_dinsert_append (fun f : StagedFile => pyLower f.name)
    (fun f => f.name) staging [] hnd (by simp)
  simpa using h

theorem expected_files_nodup_keys (manifest : List (String × List String)) :
    ((expected_files manifest).map Prod.fst).Nodup :=
  foldl_dinsert_nodup_keys (fun pr : String × String => pyLower (basename pr.1))
    (fun pr => pr) (expectedPairs manifest) [] (by simp)

theorem names_nodup_of_lower_nodup {staging : List StagedFile}
    (hnd : (staging.map (fun x => pyLower x.name)).Nodup) :
    (staging.map StagedFile.name).Nodup := by
  apply List.Nodup.of_map pyLower
  rw [List.map_map]
  exact hnd

theorem countP_matched_le (exp : List (String × (String × String)))
    (act : List (String × String)) (hnd : (act.map Prod.fst).Nodup) :
    act.countP (fun e => (dget? exp e.1).isSome) ≤ exp.length := by
  rw [List.countP_eq_length_filter]
  have h1 : ((act.filter (fun e => (dget? exp e.1).isSome)).map Prod.fst).Nodup :=
    List.Nodup.sublist ((List.filter_sublist _).map _) hnd
  have h2 : (act.filter (fun e => (dget? exp e.1).isSome)).map Prod.fst ⊆
      exp.map Prod.fst := by
    intro k hk
    obtain ⟨e, he, rfl⟩ := List.mem_map.mp hk
    have hp := List.of_mem_filter he
    obtain ⟨v, hv⟩ := Option.isSome_iff_exists.mp hp
    exact List.mem_map.mpr ⟨(e.1, v), dget?_mem hv, rfl⟩
  have h3 := (List.subperm_of_subset h1 h2).length_le
  calc (act.filter (fun e => (dget? exp e.1).isSome)).length
      = ((act.filter (fun e => (dget? exp e.1).isSome)).map Prod.fst).length := by
        rw [List.length_map]
    _ ≤ (exp.map Prod.fst).length := h3
    _ = exp.length := List.length_map _ _

theorem countP_matched_excl_le (exp : List (String × (String × String)))
    (act : List (String × String)) (k : String)
    (hnd : (act.map Prod.fst).Nodup) (hk : k ∈ exp.map Prod.fst) :
    act.countP (fun e => (dget? exp e.1).isSome && e.1 != k) ≤ exp.length - 1 := by
  rw [List.countP_eq_length_filter]
  have h1 : ((act.filter
      (fun e => (dget? exp e.1).isSome && e.1 != k)).map Prod.fst).Nodup :=
    List.Nodup.sublist ((List.filter_sublist _).map _) hnd
  have h2 : (act.filter (fun e => (dget? exp e.1).isSome && e.1 != k)).map
      Prod.fst ⊆ (exp.map Prod.fst).erase k := by
    intro k2 hk2
    obtain ⟨e, he, rfl⟩ := List.mem_map.mp hk2
    have hp := List.of_mem_filter he
    simp only [Bool.and_eq_true, bne_iff_ne] at hp
    obtain ⟨v, hv⟩ := Option.isSome_iff_exists.mp hp.1
    exact (List.mem_erase_of_ne hp.2).mpr
      (List.mem_map.mpr ⟨(e.1, v), dget?_mem hv, rfl⟩)
  have h3 := (List.subperm_of_subset h1 h2).length_le
  have h4 : ((exp.map Prod.fst).erase k).length = exp.length - 1 := by
    rw [List.length_erase_of_mem hk, List.length_map]
  calc (act.filter (fun e => (dget? exp e.1).isSome && e.1 != k)).length
      = ((act.filter
          (fun e => (dget? exp e.1).isSome && e.1 != k)).map Prod.fst).length := by
        rw [List.length_map]
    _ ≤ ((exp.map Prod.fst).erase k).length := h3
    _ = exp.length - 1 := h4

/-! ## Claim theorems: reconciler -/

/-- C1: with an empty expected index the reconciler computes `moved = 0`
and `missing = 0`, but the coverage computation `100 * moved /
total_expected` is reached with `total_expected = 0` and raises
`ZeroDivisionError` (modelled by `coveragePct = none`) instead of
reporting 0% — the code has no guard for the empty case. -/
theorem organize_empty_manifest_report (staging : List StagedFile)
    (org0 : List ((String × String) × Nat)) :
    (organize [] staging org0).report.moved = 0 ∧
    (organize [] staging org0).report.missing = 0 ∧
    (organize [] staging org0).report.coveragePct = none := by
  have hloop : moveLoop [] (actual_files staging)
      { moved := 0, staging := staging, organized := org0 } =
      { moved := 0, staging := staging, organized := org0 } :=
    moveLoop_no_moves [] _ _ (fun e _ => Or.inl rfl)
  refine ⟨?_, ?_, ?_⟩ <;>
    simp [organize, hloop, coverage, expected_files, expectedPairs]

/-- C6: a staged file whose lower-cased name is a key of the expected
index (the matching manifest entry may carry path segments — only its
basename, lower-cased, is the key) is, when it exists with non-zero size,
moved to `organized/class/real_name`, keeping the on-disk casing of the
staged file as the destination name, and it leaves the staging directory. -/
theorem case_insensitive_match_moves (M : List (String × List String))
    (staging : List StagedFile) (org0 : List ((String × String) × Nat))
    (real path cls : String) (f : StagedFile)
    (hexp : dget? (expected_files M) (pyLower real) = some (path, cls))
    (hact : (pyLower real, real) ∈ actual_files staging)
    (hfind : findFile staging real = some f) (hsz : 0 < f.size) :
    dget? ((organize M staging org0).organized) (cls, real) = some f.size ∧
    ∀ f2 ∈ (organize M staging org0).staging, f2.name ≠ real :=
  moveLoop_match_moves (expected_files M) (pyLower real) real path cls f
    (actual_files staging) { moved := 0, staging := staging, organized := org0 }
    (actual_files_nodup_keys staging) (actual_files_coh staging) hact hexp hfind
    hsz

/-- Witness for C6, the example given in the spec: staged `Fox_001.JPG` (10
bytes) matches manifest entry `some/path/fox_001.jpg` of class `fox` and
lands at `fox/Fox_001.JPG`. -/
theorem case_insensitive_match_moves_witness :
    dget? ((organize [("fox", ["some/path/fox_001.jpg"])]
      [⟨"Fox_001.JPG", 10⟩] []).organized) ("fox", "Fox_001.JPG") = some 10 ∧
    ∀ f2 ∈ (organize [("fox", ["some/path/fox_001.jpg"])]
      [⟨"Fox_001.JPG", 10⟩] []).staging, f2.name ≠ "Fox_001.JPG" :=
  case_insensitive_match_moves [("fox", ["some/path/fox_001.jpg"])]
    [⟨"Fox_001.JPG", 10⟩] [] ("Fox_001.JPG") ("some/path/fox_001.jpg") ("fox")
    ⟨"Fox_001.JPG", 10⟩ (by decide) (by decide) (by decide) (by decide)

/-- C10: the `actual_files` dict gives each case-insensitive basename at
most one staged claimant (its keys are distinct), `moved` never exceeds
the size of the expected index, and the reported `missing` is never
negative. -/
theorem reconciler_move_bounds (M : List (String × List String))
    (staging : List StagedFile) (org0 : List ((String × String) × Nat)) :
    ((actual_files staging).map Prod.fst).Nodup ∧
    (organize M staging org0).report.moved ≤ (expected_files M).length ∧
    0 ≤ (organize M staging org0).report.missing := by
  have hb := moveLoop_moved_le (expected_files M) (actual_files staging)
    { moved := 0, staging := staging, organized := org0 }
  simp only at hb
  have hc := countP_matched_le (expected_files M) (actual_files staging)
    (actual_files_nodup_keys staging)
  refine ⟨actual_files_nodup_keys staging, ?_, ?_⟩
  · show (moveLoop (expected_files M) (actual_files staging)
      { moved := 0, staging := staging, organized := org0 }).moved ≤ _
    omega
  · show (0 : Int) ≤ ((expected_files M).length : Int) -
      ((moveLoop (expected_files M) (actual_files staging)
        { moved := 0, staging := staging, organized := org0 }).moved : Int)
    omega

/-- C4 counterexample: the organize step inlined in the `main` of
`download_unsw.py` checks only `os.path.exists` and moves a staged zero-byte file
whose name matches a manifest entry, counting it as moved — so the
claimed never-moved-by-any-organize-step property fails on the code. -/
theorem zero_byte_moved_by_main_organize :
    (organize_main_step [("fox", ["a.jpg"])] [⟨"a.jpg", 0⟩] []).moved = 1 ∧
    (organize_main_step [("fox", ["a.jpg"])] [⟨"a.jpg", 0⟩] []).staging = [] ∧
    dget? (organize_main_step [("fox", ["a.jpg"])] [⟨"a.jpg", 0⟩] []).organized
      ("fox", "a.jpg") = some 0 := by
  refine ⟨rfl, rfl, rfl⟩

/-- C4 amended: in the reconciler (`organize_unsw.py`), a staged zero-byte
file whose case-insensitive basename matches the expected index is never
moved — it stays in the staging directory — and (when no other staged
file shares its case-insensitive basename) its expected entry goes
uncovered, so the run reports `missing ≥ 1`. -/
theorem zero_byte_excluded_by_reconciler (M : List (String × List String))
    (staging : List StagedFile) (org0 : List ((String × String) × Nat))
    (f : StagedFile) (path cls : String)
    (hnd : (staging.map (fun x => pyLower x.name)).Nodup)
    (hf : f ∈ staging) (hz : f.size = 0)
    (hm : dget? (expected_files M) (pyLower f.name) = some (path, cls)) :
    f ∈ (organize M staging org0).staging ∧
    1 ≤ (organize M staging org0).report.missing := by
  have hnames : (staging.map StagedFile.name).Nodup :=
    names_nodup_of_lower_nodup hnd
  constructor
  · exact moveLoop_zero_stays (expected_files M) (actual_files staging)
      { moved := 0, staging := staging, organized := org0 } f hnames hf hz
  · have hku : ∀ e ∈ actual_files staging, e.1 = pyLower f.name →
        ∀ f2, findFile staging e.2 = some f2 → f2.size = 0 := by
      intro e he hek f2 hf2
      obtain ⟨g, hg, rfl⟩ := mem_actual_files he
      have hgf : g = f :=
        List.inj_on_of_nodup_map hnd hg hf hek
      obtain ⟨hf2mem, hf2name⟩ := findFile_some hf2
      have hf2f : f2 = g :=
        List.inj_on_of_nodup_map hnames hf2mem hg hf2name
      rw [hf2f, hgf]
      exact hz
    have hb := moveLoop_moved_le_excl (expected_files M) (pyLower f.name)
      (actual_files staging)
      { moved := 0, staging := staging, organized := org0 }
      (actual_files_coh staging) hku
    simp only at hb
    have hkmem : pyLower f.name ∈ (expected_files M).map Prod.fst :=
      List.mem_map.mpr ⟨(pyLower f.name, (path, cls)), dget?_mem hm, rfl⟩
    have hc := countP_matched_excl_le (expected_files M) (actual_files staging)
      (pyLower f.name) (actual_files_nodup_keys staging) hkmem
    have hlen : 1 ≤ (expected_files M).length :=
      List.length_pos.mpr (List.ne_nil_of_mem (dget?_mem hm))
    show (1 : Int) ≤ ((expected_files M).length : Int) -
      ((moveLoop (expected_files M) (actual_files staging)
        { moved := 0, staging := staging, organized := org0 }).moved : Int)
    omega

/-- Witness for C4 (amended), the scenario given in the spec: staged `B.JPG` of size
0 matches expected `b.jpg`; it stays in staging and the run reports one
missing file. -/
theorem zero_byte_excluded_by_reconciler_witness :
    (⟨"B.JPG", 0⟩ : StagedFile) ∈
      (organize [("fox", ["b.jpg"])] [⟨"B.JPG", 0⟩] []).staging ∧
    1 ≤ (organize [("fox", ["b.jpg"])] [⟨"B.JPG", 0⟩] []).report.missing :=
  zero_byte_excluded_by_reconciler [("fox", ["b.jpg"])] [⟨"B.JPG", 0⟩] []
    ⟨"B.JPG", 0⟩ ("b.jpg") ("fox") (by decide) (by decide) (by decide) (by decide)

/-- C7 counterexample: with two staged files `B.JPG` (5 bytes) and
`b.jpg` (7 bytes) sharing a case-insensitive basename expected as
`b.jpg`, the first run moves only `b.jpg` (the last claimant of the key
in the dict); the second run then moves `B.JPG` as well, so the organized
tree after two runs differs from the tree after one run and the second
run reports `moved` 1, not 0. -/
theorem reconciler_second_run_changes_tree :
    (organize [("fox", ["b.jpg"])]
      (organize [("fox", ["b.jpg"])] [⟨"B.JPG", 5⟩, ⟨"b.jpg", 7⟩] []).staging
      (organize [("fox", ["b.jpg"])] [⟨"B.JPG", 5⟩, ⟨"b.jpg", 7⟩] []).organized
      ).organized ≠
    (organize [("fox", ["b.jpg"])] [⟨"B.JPG", 5⟩, ⟨"b.jpg", 7⟩] []).organized ∧
    (organize [("fox", ["b.jpg"])]
      (organize [("fox", ["b.jpg"])] [⟨"B.JPG", 5⟩, ⟨"b.jpg", 7⟩] []).staging
      (organize [("fox", ["b.jpg"])] [⟨"B.JPG", 5⟩, ⟨"b.jpg", 7⟩] []).organized
      ).report.moved = 1 := by
  refine ⟨?_, rfl⟩
  decide

theorem moveLoop_residue (M : List (String × List String))
    (staging : List StagedFile) (org0 : List ((String × String) × Nat))
    (hnd : (staging.map (fun x => pyLower x.name)).Nodup) :
    ∀ f ∈ (moveLoop (expected_files M) (actual_files staging)
      { moved := 0, staging := staging, organized := org0 }).staging,
      dget? (expected_files M) (pyLower f.name) = none ∨ f.size = 0 := by
  intro g hg
  have hnames := names_nodup_of_lower_nodup hnd
  have hgstage : g ∈ staging :=
    (moveLoop_staging_sublist _ _ _).subset hg
  by_cases hz : g.size = 0
  · exact Or.inr hz
  · left
    by_contra hne
    cases hd : dget? (expected_files M) (pyLower g.name) with
    | none => exact hne hd
    | some pc =>
      obtain ⟨path, cls⟩ := pc
      have hact : (pyLower g.name, g.name) ∈ actual_files staging := by
        rw [actual_files_eq_map hnd]
        exact List.mem_map.mpr ⟨g, hgstage, rfl⟩
      have hfind : findFile staging g.name = some g :=
        findFile_of_mem_nodup hnames hgstage
      have hsz : 0 < g.size := Nat.pos_of_ne_zero hz
      have h := moveLoop_match_moves (expected_files M) (pyLower g.name)
        g.name path cls g (actual_files staging)
        { moved := 0, staging := staging, organized := org0 }
        (actual_files_nodup_keys staging) (actual_files_coh staging) hact hd
        hfind hsz
      exact h.2 g hg rfl

theorem moveLoop_residue_no_moves (M : List (String × List String))
    (staging : List StagedFile) (org0 : List ((String × String) × Nat))
    (hnd : (staging.map (fun x => pyLower x.name)).Nodup) (st2 : MoveState)
    (hst : st2.staging = (moveLoop (expected_files M) (actual_files staging)
      { moved := 0, staging := staging, organized := org0 }).staging) :
    moveLoop (expected_files M) (actual_files st2.staging) st2 = st2 := by
  have hnames := names_nodup_of_lower_nodup hnd
  have hnd1 : (st2.staging.map StagedFile.name).Nodup := by
    rw [hst]
    exact List.Nodup.sublist ((moveLoop_staging_sublist _ _ _).map _) hnames
  apply moveLoop_no_moves
  intro e he
  obtain ⟨g, hg, rfl⟩ := mem_actual_files he
  rcases moveLoop_residue M staging org0 hnd g (hst ▸ hg) with hd | hz
  · exact Or.inl hd
  · right
    intro f2 hf2
    obtain ⟨hf2mem, hf2name⟩ := findFile_some hf2
    have : f2 = g := List.inj_on_of_nodup_map hnd1 hf2mem hg hf2name
    rw [this]
    exact hz

/-- C7 amended: provided no two staged files share the same
case-insensitive basename, running the reconciler twice over the same
staging directory and organized root yields the same final organized tree
and the same residual staging directory as running it once, and the
second run moves nothing (`moved = 0`): a file already migrated is never
moved or counted again.  (Without that proviso the claim fails: see the
counterexample, where a case-colliding leftover is moved by the second
run.) -/
theorem reconciler_idempotent_of_distinct_basenames
    (M : List (String × List String)) (staging : List StagedFile)
    (org0 : List ((String × String) × Nat))
    (hnd : (staging.map (fun x => pyLower x.name)).Nodup) :
    (organize M (organize M staging org0).staging
      (organize M staging org0).organized).organized =
      (organize M staging org0).organized ∧
    (organize M (organize M staging org0).staging
      (organize M staging org0).organized).staging =
      (organize M staging org0).staging ∧
    (organize M (organize M staging org0).staging
      (organize M staging org0).organized).report.moved = 0 := by
  have hfix := moveLoop_residue_no_moves M staging org0 hnd
    { moved := 0
      staging := (moveLoop (expected_files M) (actual_files staging)
        { moved := 0, staging := staging, organized := org0 }).staging
      organized := (moveLoop (expected_files M) (actual_files staging)
        { moved := 0, staging := staging, organized := org0 }).organized }
    rfl
  refine ⟨?_, ?_, ?_⟩
  · show (moveLoop (expected_files M)
      (actual_files (moveLoop (expected_files M) (actual_files staging)
        { moved := 0, staging := staging, organized := org0 }).staging)
      { moved := 0
        staging := (moveLoop (expected_files M) (actual_files staging)
          { moved := 0, staging := staging, organized := org0 }).staging
        organized := (moveLoop (expected_files M) (actual_files staging)
          { moved := 0, staging := staging, organized := org0 }).organized
        }).organized =
      (moveLoop (expected_files M) (actual_files staging)
        { moved := 0, staging := staging, organized := org0 }).organized
    rw [hfix]
  · show (moveLoop (expected_files M)
      (actual_files (moveLoop (expected_files M) (actual_files staging)
        { moved := 0, staging := staging, organized := org0 }).staging)
      { moved := 0
        staging := (moveLoop (expected_files M) (actual_files staging)
          { moved := 0, staging := staging, organized := org0 }).staging
        organized := (moveLoop (expected_files M) (actual_files staging)
          { moved := 0, staging := staging, organized := org0 }).organized
        }).staging =
      (moveLoop (expected_files M) (actual_files staging)
        { moved := 0, staging := staging, organized := org0 }).staging
    rw [hfix]
  · show (moveLoop (expected_files M)
      (actual_files (moveLoop (expected_files M) (actual_files staging)
        { moved := 0, staging := staging, organized := org0 }).staging)
      { moved := 0
        staging := (moveLoop (expected_files M) (actual_files staging)
          { moved := 0, staging := staging, organized := org0 }).staging
        organized := (moveLoop (expected_files M) (actual_files staging)
          { moved := 0, staging := staging, organized := org0 }).organized
        }).moved = 0
    rw [hfix]

/-- Witness for C7 (amended) on a collision-free staging directory. -/
theorem reconciler_idempotent_witness :
    (organize [("fox", ["a.jpg"])]
      (organize [("fox", ["a.jpg"])] [⟨"a.jpg", 3⟩] []).staging
      (organize [("fox", ["a.jpg"])] [⟨"a.jpg", 3⟩] []).organized).organized =
      (organize [("fox", ["a.jpg"])] [⟨"a.jpg", 3⟩] []).organized ∧
    (organize [("fox", ["a.jpg"])]
      (organize [("fox", ["a.jpg"])] [⟨"a.jpg", 3⟩] []).staging
      (organize [("fox", ["a.jpg"])] [⟨"a.jpg", 3⟩] []).organized).staging =
      (organize [("fox", ["a.jpg"])] [⟨"a.jpg", 3⟩] []).staging ∧
    (organize [("fox", ["a.jpg"])]
      (organize [("fox", ["a.jpg"])] [⟨"a.jpg", 3⟩] []).staging
      (organize [("fox", ["a.jpg"])] [⟨"a.jpg", 3⟩] []).organized
      ).report.moved = 0 :=
  reconciler_idempotent_of_distinct_basenames [("fox", ["a.jpg"])]
    [⟨"a.jpg", 3⟩] [] (by decide)

end UNSW
